import Mathlib

/-!
Verification development for the 5am task manager (src/main.py, src/db.py).

The hierarchy and ordering engine is shallowly embedded: task records are
rows of the todos table, the tree builder `build_display_items` mirrors the
method of the same name in main.py, and the move planner `perform_move`
mirrors the guard structure and store updates of `TodoApp.perform_move`.
Python floats (the `sort_order` column) are modelled as rational numbers;
the recursive depth first walk and the ancestor loop of `is_descendant`
are modelled with an explicit fuel parameter, with fuel independence proved
where the Python code terminates.
-/

namespace FiveAm

/-- Task record as produced by the db module: one row of the todos table
(`db.TodoRecord`). The floating point `sort_order` column is modelled as a
rational number. -/
structure TodoRecord where
  todo_id : Nat
  text : String
  timestamp : String
  status : String
  parent_id : Option Nat
  sort_order : Rat
  priority : Option Int
deriving DecidableEq, Repr

/-- Sibling sort key computed by `build_display_items.sort_key` in main.py:
the code returns the pair `(item.timestamp, item.todo_id)`. -/
def sort_key (r : TodoRecord) : String × Nat :=
  (r.timestamp, r.todo_id)

/-- Lexicographic comparison of two character sequences by code point,
how Python compares strings. -/
def char_list_lt : List Char → List Char → Bool
  | [], [] => false
  | [], _ :: _ => true
  | _ :: _, [] => false
  | a :: as, b :: bs => if a < b then true else if b < a then false else char_list_lt as bs

/-- Lexicographic comparison of the tuples returned by `sort_key`, exactly
how Python compares `(str, int)` pairs. -/
def key_le (a b : String × Nat) : Bool :=
  char_list_lt a.1.data b.1.data || (a.1.data == b.1.data && a.2 ≤ b.2)

/-- Record comparison induced by `sort_key`. -/
def rec_le (a b : TodoRecord) : Prop := key_le (sort_key a) (sort_key b) = true

instance : DecidableRel rec_le := fun a b => by
  unfold rec_le; infer_instance

/-- Stable ascending sort by `sort_key`: the effect of the Python calls
`roots.sort(key=sort_key)` and `children.sort(key=sort_key)`. -/
def sort_by_key (l : List TodoRecord) : List TodoRecord :=
  List.insertionSort rec_le l

/-- The ids present in the working set: the key set of the Python dict
`record_by_id`. -/
def present_ids (records : List TodoRecord) : List Nat :=
  records.map (·.todo_id)

/-- The membership test `record.parent_id in record_by_id` from
`build_display_items`: true when the record carries a parent reference and
that id belongs to a record of the working set. -/
def parent_present (records : List TodoRecord) (r : TodoRecord) : Bool :=
  match r.parent_id with
  | none => false
  | some p => (present_ids records).contains p

/-- The sorted `roots` list of `build_display_items`: records whose parent
reference is absent or dangling. -/
def roots (records : List TodoRecord) : List TodoRecord :=
  sort_by_key (records.filter (fun r => !parent_present records r))

/-- The sorted children group `children_map[todo_id]` of
`build_display_items`: records whose parent reference equals `todo_id`.
For ids of the working set this is exactly the list the Python dict holds
after the sorting pass. -/
def children_map (records : List TodoRecord) (todo_id : Nat) : List TodoRecord :=
  sort_by_key (records.filter (fun r => r.parent_id == some todo_id))

/-- The recursive helper `walk` of `build_display_items`: emit the node with
its depth, then the subtrees of its sorted children in order. The fuel
parameter bounds the recursion depth; `walk_fuel_eq` below shows the result
is fuel independent once the fuel reaches the size of the working set. -/
def walk (records : List TodoRecord) : Nat → TodoRecord → Nat → List (TodoRecord × Nat)
  | 0, _, _ => []
  | fuel + 1, node, depth =>
    (node, depth) ::
      (children_map records node.todo_id).flatMap (fun c => walk records fuel c (depth + 1))

/-- The tree branch of `build_display_items` run with an explicit recursion
bound: every root subtree is walked in sorted root order. -/
def build_display_items_fuel (fuel : Nat) (records : List TodoRecord) :
    List (TodoRecord × Nat) :=
  (roots records).flatMap (fun r => walk records fuel r 0)

/-- The tree branch of `TodoApp.build_display_items` for one status view:
the depth annotated linearization of the forest. The fuel
`records.length` always suffices, see `c3_walk_terminates_fuel_stable`. -/
def build_display_items (records : List TodoRecord) : List (TodoRecord × Nat) :=
  build_display_items_fuel records.length records

/-- Displayed list entry: the fields of `TodoListItem` that the move and
insert planners read (record fields plus the rendered depth). -/
structure Item where
  todo_id : Nat
  status : String
  text : String
  parent_id : Option Nat
  sort_order : Rat
  priority : Option Int
  depth : Nat
deriving DecidableEq, Repr

/-- `TodoApp.find_item_by_id`: first displayed item carrying the id. -/
def find_item_by_id (items : List Item) (todo_id : Nat) : Option Item :=
  items.find? (fun item => item.todo_id == todo_id)

/-- The Python dict `{item.todo_id: item.parent_id for item in items}`
queried with `.get`: the parent reference of the last item carrying the
key, with an absent key and an absent parent both answered by `none`,
exactly as `.get` merges the two cases. -/
def parent_by_id (items : List Item) (key : Nat) : Option Nat :=
  match items.reverse.find? (fun item => item.todo_id == key) with
  | none => none
  | some item => item.parent_id

/-- Loop body of `TodoApp.is_descendant`: follow parent references until
the searched ancestor id is met or the chain leaves the map. The fuel
bounds the number of iterations of the Python while loop. -/
def is_descendant_go (parent_map : Nat → Option Nat) (ancestor_id : Nat) :
    Option Nat → Nat → Bool
  | none, _ => false
  | some _, 0 => false
  | some current, fuel + 1 =>
    if current == ancestor_id then true
    else is_descendant_go parent_map ancestor_id (parent_map current) fuel

/-- `TodoApp.is_descendant`: whether `candidate_id` lies strictly below
`ancestor_id` along the parent chain of the displayed items. -/
def is_descendant (candidate_id ancestor_id : Nat) (parent_map : Nat → Option Nat)
    (fuel : Nat) : Bool :=
  is_descendant_go parent_map ancestor_id (parent_map candidate_id) fuel

/-- Iteration bound used for the ancestor walk over a displayed list: the
chains of a rendered forest are shorter than the list itself. -/
def desc_fuel (items : List Item) : Nat := items.length + 1

/-- Scan loop of `TodoApp.last_descendant_index`: extend the answer while
the following entries, supplied as the tail of the displayed list starting
right after position `j`, are strictly deeper than the start entry. -/
def last_descendant_scan (parent_depth : Nat) (j : Nat) : List Item → Nat
  | [] => j
  | nxt :: rest =>
    if nxt.depth ≤ parent_depth then j else last_descendant_scan parent_depth (j + 1) rest

/-- `TodoApp.last_descendant_index`: index of the last entry of the subtree
rendered under `items[index]`; `none` models the IndexError Python raises
when the start index is out of range. -/
def last_descendant_index (items : List Item) (index : Nat) : Option Nat :=
  match items[index]? with
  | none => none
  | some parent => some (last_descendant_scan parent.depth index (items.drop (index + 1)))

/-- `TodoApp.sort_order_after_index`: midpoint with the next entry, or a
step of one past the current key at a boundary or key collision; `none`
models the IndexError on an out of range index. -/
def sort_order_after_index (items : List Item) (index : Nat) : Option Rat :=
  match items[index]? with
  | none => none
  | some item =>
    match items[index + 1]? with
    | some nxt =>
      if nxt.sort_order ≤ item.sort_order then some (item.sort_order + 1)
      else some ((item.sort_order + nxt.sort_order) / 2)
    | none => some (item.sort_order + 1)

/-- `TodoApp.sort_order_before_index`: midpoint with the preceding entry,
or a step of one below the current key at the front or on a key
collision; `none` models the IndexError on an out of range index. -/
def sort_order_before_index (items : List Item) (index : Nat) : Option Rat :=
  match items[index]? with
  | none => none
  | some item =>
    if index > 0 then
      match items[index - 1]? with
      | none => none
      | some prev =>
        if item.sort_order ≤ prev.sort_order then some (item.sort_order - 1)
        else some ((prev.sort_order + item.sort_order) / 2)
    else some (item.sort_order - 1)

/-- `TodoApp.sort_order_after_subtree`: the after key taken at the last
descendant of the entry at `index`. -/
def sort_order_after_subtree (items : List Item) (index : Nat) : Option Rat :=
  match last_descendant_index items index with
  | none => none
  | some last => sort_order_after_index items last

/-- One store write issued by the shell while applying a move plan:
`db.update_parent` or `db.update_sort_order`. -/
inductive StoreUpdate where
  | setParent (todo_id : Nat) (parent_id : Option Nat)
  | setSortOrder (todo_id : Nat) (sort_order : Rat)
deriving DecidableEq, Repr

/-- `db.update_parent`: rewrite the parent reference of the rows carrying
the id. -/
def update_parent (store : List TodoRecord) (todo_id : Nat) (parent_id : Option Nat) :
    List TodoRecord :=
  store.map (fun r => if r.todo_id = todo_id then { r with parent_id := parent_id } else r)

/-- `db.update_sort_order`: rewrite the sort key of the rows carrying the
id. -/
def update_sort_order (store : List TodoRecord) (todo_id : Nat) (sort_order : Rat) :
    List TodoRecord :=
  store.map (fun r => if r.todo_id = todo_id then { r with sort_order := sort_order } else r)

/-- Apply one store write. -/
def apply_update (store : List TodoRecord) : StoreUpdate → List TodoRecord
  | .setParent todo_id parent_id => update_parent store todo_id parent_id
  | .setSortOrder todo_id sort_order => update_sort_order store todo_id sort_order

/-- Apply a move plan to the store, one write after the other. -/
def apply_updates (store : List TodoRecord) (updates : List StoreUpdate) :
    List TodoRecord :=
  updates.foldl apply_update store

/-- `TodoApp.perform_move` from the point where the displayed items, the
moved id and the highlighted index are fixed: the guard cascade and the
store writes each branch issues. `some us` means the Python call returns
normally after issuing the writes `us` in order; `none` models an escaped
exception. An empty write list is a silent no-op. -/
def perform_move (items : List Item) (source_id : Nat) (target_index : Nat)
    (relationship : String) : Option (List StoreUpdate) :=
  match find_item_by_id items source_id, items[target_index]? with
  | some source_item, some target_item =>
    if source_item.todo_id == target_item.todo_id then some []
    else if source_item.status != target_item.status then some []
    else if is_descendant target_item.todo_id source_item.todo_id
        (parent_by_id items) (desc_fuel items) then
      if relationship == "sibling" then
        let source_parent := parent_by_id items source_item.todo_id
        let source_index := items.findIdx (fun item => item.todo_id == source_id)
        match sort_order_after_subtree items source_index with
        | none => none
        | some sort_order =>
          some [.setParent target_item.todo_id source_parent,
                .setSortOrder target_item.todo_id sort_order]
      else some []
    else if relationship == "child" then
      match sort_order_after_subtree items target_index with
      | none => none
      | some sort_order =>
        some [.setParent source_item.todo_id (some target_item.todo_id),
              .setSortOrder source_item.todo_id sort_order]
    else if relationship == "sibling" then
      match sort_order_after_subtree items target_index with
      | none => none
      | some sort_order =>
        some [.setParent source_item.todo_id target_item.parent_id,
              .setSortOrder source_item.todo_id sort_order]
    else if relationship == "parent" then
      match sort_order_before_index items target_index with
      | none => none
      | some sort_order =>
        some [.setParent source_item.todo_id target_item.parent_id,
              .setSortOrder source_item.todo_id sort_order,
              .setParent target_item.todo_id (some source_item.todo_id)]
    else some []
  | _, _ => some []

/-- The COALESCE(MAX(sort_order), 0) subquery of `db.add_todo`, taken over
the rows sharing the status. -/
def max_sort_order (store : List TodoRecord) (status : String) : Rat :=
  match (store.filter (fun r => r.status == status)).map (·.sort_order) with
  | [] => 0
  | x :: xs => xs.foldl max x

/-- `db.add_todo`: build the inserted row. A missing sort key defaults to
one past the maximum over the rows of the same status; id and timestamp
come from the database engine and are passed in. Returns the new record
and the grown store. -/
def add_todo (store : List TodoRecord) (text : String) (status : String)
    (parent_id : Option Nat) (sort_order : Option Rat) (priority : Option Int)
    (new_id : Nat) (timestamp : String) : TodoRecord × List TodoRecord :=
  let so := match sort_order with
    | some s => s
    | none => max_sort_order store status + 1
  let r : TodoRecord := ⟨new_id, text, timestamp, status, parent_id, so, priority⟩
  (r, store ++ [r])

/-- `db.update_priority`: rewrite the priority of the rows carrying the
id. -/
def update_priority (store : List TodoRecord) (todo_id : Nat) (priority : Option Int) :
    List TodoRecord :=
  store.map (fun r => if r.todo_id = todo_id then { r with priority := priority } else r)

/-- Digit value of a key name, the effect of `int(event.key)` on the ten
digit keys. -/
def digit_value (key : String) : Int :=
  match key with
  | "0" => 0 | "1" => 1 | "2" => 2 | "3" => 3 | "4" => 4
  | "5" => 5 | "6" => 6 | "7" => 7 | "8" => 8 | "9" => 9
  | _ => 0

/-- Digit branch of `TodoApp.on_key`: for a digit key the handler calls
`update_priority` with `None if priority == 0 else priority`; the result
is the argument passed, or `none` when the key is not a digit and
`update_priority` is not invoked at all. -/
def on_key_priority (key : String) : Option (Option Int) :=
  if (["0", "1", "2", "3", "4", "5", "6", "7", "8", "9"] : List String).contains key then
    let priority := digit_value key
    some (if priority == 0 then none else some priority)
  else none

/-- C1: the claim says the roots and every sibling group of the tree
linearization appear in ascending `(sort_order, id)` order. The code
instead sorts by `(timestamp, todo_id)`: on two root records whose
timestamp order opposes their sort key order, `build_display_items` lists
the record with the larger `sort_order` first, so the linearization is not
ascending in `(sort_order, id)`. The store writes fractional sort keys
precisely to reorder this view, so the displayed comparison key is a slip
of the code. -/
theorem c1_tree_order_follows_timestamp_not_sort_order :
    build_display_items
      [⟨1, "a", "tsA", "todo", none, 2, none⟩,
       ⟨2, "b", "tsB", "todo", none, 1, none⟩] =
      [(⟨1, "a", "tsA", "todo", none, 2, none⟩, 0),
       (⟨2, "b", "tsB", "todo", none, 1, none⟩, 0)] ∧
    (⟨2, "b", "tsB", "todo", none, 1, none⟩ : TodoRecord).sort_order <
      (⟨1, "a", "tsA", "todo", none, 2, none⟩ : TodoRecord).sort_order := by
  constructor
  · decide
  · decide

/-- C2 counterexample: two records forming a parent cycle are both present
in the input, yet the linearization is empty, so it does not contain each
record exactly once. -/
theorem c2_cyclic_records_dropped :
    build_display_items
      [⟨1, "a", "t1", "todo", some 2, 1, none⟩,
       ⟨2, "b", "t2", "todo", some 1, 2, none⟩] = [] ∧
    ¬ ((build_display_items
        [⟨1, "a", "t1", "todo", some 2, 1, none⟩,
         ⟨2, "b", "t2", "todo", some 1, 2, none⟩]).map Prod.fst).Perm
      [⟨1, "a", "t1", "todo", some 2, 1, none⟩,
       ⟨2, "b", "t2", "todo", some 1, 2, none⟩] := by
  constructor
  · decide
  · decide

/-- C6: the after placement primitive returns the midpoint when the
following key is strictly greater, the current key plus one on a key
collision or when no following entry exists, and the before placement
primitive returns the current key minus one at the front of the list. -/
theorem c6_after_placement_and_boundaries :
    (∀ (items : List Item) (i : Nat) (cur nxt : Item),
        items[i]? = some cur → items[i + 1]? = some nxt →
        (cur.sort_order < nxt.sort_order →
          sort_order_after_index items i =
            some ((cur.sort_order + nxt.sort_order) / 2)) ∧
        (nxt.sort_order ≤ cur.sort_order →
          sort_order_after_index items i = some (cur.sort_order + 1))) ∧
    (∀ (items : List Item) (i : Nat) (cur : Item),
        items[i]? = some cur → items[i + 1]? = none →
        sort_order_after_index items i = some (cur.sort_order + 1)) ∧
    (∀ (items : List Item) (cur : Item),
        items[0]? = some cur →
        sort_order_before_index items 0 = some (cur.sort_order - 1)) := by
  refine ⟨fun items i cur nxt hc hn => ⟨fun hlt => ?_, fun hle => ?_⟩,
    fun items i cur hc hn => ?_, fun items cur hc => ?_⟩
  · simp [sort_order_after_index, hc, hn, not_le.mpr hlt]
  · simp [sort_order_after_index, hc, hn, hle]
  · simp [sort_order_after_index, hc, hn]
  · simp [sort_order_before_index, hc]

/-- C6 witness: the three behaviours on concrete two element lists. -/
theorem c6_after_placement_and_boundaries_witness :
    (sort_order_after_index
      [⟨1, "todo", "a", none, 1, none, 0⟩, ⟨2, "todo", "b", none, 2, none, 0⟩] 0 =
      some ((1 + 2) / 2 : Rat)) ∧
    (sort_order_after_index
      [⟨1, "todo", "a", none, 2, none, 0⟩, ⟨2, "todo", "b", none, 2, none, 0⟩] 0 =
      some ((2 : Rat) + 1)) ∧
    (sort_order_after_index [⟨1, "todo", "a", none, 5, none, 0⟩] 0 =
      some ((5 : Rat) + 1)) ∧
    (sort_order_before_index
      [⟨1, "todo", "a", none, 4, none, 0⟩, ⟨2, "todo", "b", none, 9, none, 0⟩] 0 =
      some ((4 : Rat) - 1)) := by
  refine ⟨(c6_after_placement_and_boundaries.1 _ 0 _ _ rfl rfl).1 (by decide),
    (c6_after_placement_and_boundaries.1 _ 0 _ _ rfl rfl).2 (by decide),
    c6_after_placement_and_boundaries.2.1 _ 0 _ rfl rfl,
    c6_after_placement_and_boundaries.2.2 _ _ rfl⟩

/-- C8 counterexample: on a key collision with the preceding entry (keys 5
then 3 at index 1) the code returns the current key minus one, 2, not the
preceding key minus one, 4, as the claim states. -/
theorem c8_collision_returns_current_minus_one :
    sort_order_before_index
      [⟨1, "todo", "x", none, 5, none, 0⟩, ⟨2, "todo", "y", none, 3, none, 0⟩] 1 =
      some 2 ∧
    (2 : Rat) ≠ 5 - 1 := by
  constructor
  · norm_num [sort_order_before_index]
  · norm_num

/-- C8 amended: the before placement primitive returns the midpoint of the
preceding and current keys when the preceding key is strictly smaller, and
the current key minus one when the preceding key is greater than or equal
to the current key; with no preceding entry it returns the current key
minus one. -/
theorem c8_before_placement_amended :
    (∀ (items : List Item) (i : Nat) (cur prev : Item), 0 < i →
        items[i]? = some cur → items[i - 1]? = some prev →
        (prev.sort_order < cur.sort_order →
          sort_order_before_index items i =
            some ((prev.sort_order + cur.sort_order) / 2)) ∧
        (cur.sort_order ≤ prev.sort_order →
          sort_order_before_index items i = some (cur.sort_order - 1))) ∧
    (∀ (items : List Item) (cur : Item),
        items[0]? = some cur →
        sort_order_before_index items 0 = some (cur.sort_order - 1)) := by
  refine ⟨fun items i cur prev hi hc hp => ⟨fun hlt => ?_, fun hle => ?_⟩,
    fun items cur hc => ?_⟩
  · simp [sort_order_before_index, hc, hp, hi, not_le.mpr hlt]
  · simp [sort_order_before_index, hc, hp, hi, hle]
  · simp [sort_order_before_index, hc]

/-- C8 amended witness: midpoint, collision and front behaviour on
concrete lists. -/
theorem c8_before_placement_amended_witness :
    (sort_order_before_index
      [⟨1, "todo", "x", none, 1, none, 0⟩, ⟨2, "todo", "y", none, 2, none, 0⟩] 1 =
      some ((1 + 2) / 2 : Rat)) ∧
    (sort_order_before_index
      [⟨1, "todo", "x", none, 5, none, 0⟩, ⟨2, "todo", "y", none, 3, none, 0⟩] 1 =
      some ((3 : Rat) - 1)) ∧
    (sort_order_before_index [⟨1, "todo", "x", none, 7, none, 0⟩] 0 =
      some ((7 : Rat) - 1)) := by
  refine ⟨(c8_before_placement_amended.1 _ 1 _ _ (by decide) rfl rfl).1 (by decide),
    (c8_before_placement_amended.1 _ 1 _ _ (by decide) rfl rfl).2 (by decide),
    c8_before_placement_amended.2 _ _ rfl⟩

/-- C9 counterexample: the store holds a root row with key 10 and a child
row of that present parent with key 20 — the child is a sibling of a new
root under no reading, dangling or not. A new root row therefore has one
sibling, the root with key 10, and the claim predicts 10 + 1 = 11; the
code takes the maximum over all rows of the status and returns 21.
Likewise, on an empty store the claim predicts the new id 2, while the
code returns 0 + 1 = 1. -/
theorem c9_default_key_ignores_siblings :
    ((add_todo
      [⟨1, "a", "t1", "todo", none, 10, none⟩,
       ⟨2, "b", "t2", "todo", some 1, 20, none⟩] "c" "todo" none none none 3
        "t3").1.sort_order = 21) ∧
    parent_present
      [⟨1, "a", "t1", "todo", none, 10, none⟩,
       ⟨2, "b", "t2", "todo", some 1, 20, none⟩]
      ⟨1, "a", "t1", "todo", none, 10, none⟩ = false ∧
    parent_present
      [⟨1, "a", "t1", "todo", none, 10, none⟩,
       ⟨2, "b", "t2", "todo", some 1, 20, none⟩]
      ⟨2, "b", "t2", "todo", some 1, 20, none⟩ = true ∧
    (21 : Rat) ≠ 10 + 1 ∧
    ((add_todo [] "c" "todo" none none none 2 "t2").1.sort_order = 1) ∧
    (1 : Rat) ≠ 2 := by
  refine ⟨by norm_num [add_todo, max_sort_order], by decide, by decide, by norm_num,
    by norm_num [add_todo, max_sort_order], by norm_num⟩

/-- C9 amended: a record created without an explicit sort key defaults to
one greater than the maximum `sort_order` over all stored rows sharing its
status, regardless of parent, and to 1 when no row of that status
exists. -/
theorem c9_default_key_is_status_max_plus_one (store : List TodoRecord)
    (text status : String) (parent_id : Option Nat) (priority : Option Int)
    (new_id : Nat) (timestamp : String) :
    (add_todo store text status parent_id none priority new_id
        timestamp).1.sort_order = max_sort_order store status + 1 ∧
    (add_todo [] text status parent_id none priority new_id
        timestamp).1.sort_order = 1 := by
  constructor
  · rfl
  · show max_sort_order [] status + 1 = 1
    norm_num [max_sort_order]

/-- On a digit key the handler passes `none` exactly for the digit 0 and
the digit itself otherwise, so the argument is never the literal 0. -/
theorem on_key_priority_ne_zero (key : String) (p : Option Int)
    (h : on_key_priority key = some p) : p ≠ some 0 := by
  unfold on_key_priority at h
  split at h
  · rw [Option.some_inj] at h
    subst h
    split
    · exact fun hc => Option.noConfusion hc
    · rename_i hz
      intro hc
      rw [Option.some_inj] at hc
      rw [hc] at hz
      simp at hz
  · exact absurd h (fun hc => Option.noConfusion hc)

/-- C10: pressing 0 invokes `update_priority` with `none`, each digit 1
through 9 with that integer, the handler never passes the literal 0, and a
row rewritten by the resulting store update never carries priority 0. -/
theorem c10_digit_zero_clears_priority :
    on_key_priority "0" = some none ∧
    (on_key_priority "1" = some (some 1) ∧ on_key_priority "2" = some (some 2) ∧
     on_key_priority "3" = some (some 3) ∧ on_key_priority "4" = some (some 4) ∧
     on_key_priority "5" = some (some 5) ∧ on_key_priority "6" = some (some 6) ∧
     on_key_priority "7" = some (some 7) ∧ on_key_priority "8" = some (some 8) ∧
     on_key_priority "9" = some (some 9)) ∧
    (∀ (key : String) (p : Option Int), on_key_priority key = some p → p ≠ some 0) ∧
    (∀ (key : String) (p : Option Int) (store : List TodoRecord) (todo_id : Nat)
        (r : TodoRecord), on_key_priority key = some p →
        r ∈ update_priority store todo_id p → r.todo_id = todo_id →
        r.priority ≠ some 0) := by
  refine ⟨by decide, ⟨by decide, by decide, by decide, by decide, by decide, by decide,
    by decide, by decide, by decide⟩, on_key_priority_ne_zero, ?_⟩
  intro key p store todo_id r hk hr hid
  rcases List.mem_map.mp hr with ⟨r0, _, rfl⟩
  by_cases h0 : r0.todo_id = todo_id
  · simpa [h0] using on_key_priority_ne_zero key p hk
  · simp only [if_neg h0] at hid ⊢
    exact absurd hid h0

/-- C10 witness: the handler at the concrete keys 0 and 5, and a concrete
store rewrite that leaves no zero priority behind. -/
theorem c10_digit_zero_clears_priority_witness :
    on_key_priority "0" = some none ∧
    on_key_priority "5" = some (some 5) ∧
    some (5 : Int) ≠ some 0 := by
  refine ⟨c10_digit_zero_clears_priority.1,
    c10_digit_zero_clears_priority.2.1.2.2.2.2.1,
    c10_digit_zero_clears_priority.2.2.1 "5" (some 5) ?_⟩
  exact c10_digit_zero_clears_priority.2.1.2.2.2.2.1

section MoveClaims

/-- Two displayed items with the same id are the same item when the
displayed ids are distinct. -/
theorem item_eq_of_id_eq {items : List Item} (h : (items.map (·.todo_id)).Nodup)
    {a b : Item} (ha : a ∈ items) (hb : b ∈ items) (hid : a.todo_id = b.todo_id) :
    a = b := by
  induction items with
  | nil => cases ha
  | cons x xs ih =>
    rw [List.map_cons, List.nodup_cons] at h
    rcases List.mem_cons.mp ha with h1 | h1
    · rcases List.mem_cons.mp hb with h2 | h2
      · rw [h1, h2]
      · subst h1
        refine absurd ?_ h.1
        rw [hid]
        exact List.mem_map_of_mem (·.todo_id) h2
    · rcases List.mem_cons.mp hb with h2 | h2
      · subst h2
        refine absurd ?_ h.1
        rw [← hid]
        exact List.mem_map_of_mem (·.todo_id) h1
      · exact ih h.2 h1 h2

/-- With distinct displayed ids, the parent dict lookup at the id of a
displayed item answers exactly the parent reference of that item. -/
theorem parent_by_id_of_mem {items : List Item} (h : (items.map (·.todo_id)).Nodup)
    {s : Item} (hs : s ∈ items) : parent_by_id items s.todo_id = s.parent_id := by
  unfold parent_by_id
  cases hfind : items.reverse.find? (fun item => item.todo_id == s.todo_id) with
  | none =>
    have := List.find?_eq_none.mp hfind s (List.mem_reverse.mpr hs)
    simp at this
  | some r =>
    have hpr := List.find?_some hfind
    have hid : r.todo_id = s.todo_id := by simpa using hpr
    have hmem : r ∈ items := List.mem_reverse.mp (List.mem_of_find?_eq_some hfind)
    rw [item_eq_of_id_eq h hmem hs hid]

/-- The scan of `last_descendant_index` moves at most to the end of the
supplied tail. -/
theorem last_descendant_scan_le (pd : Nat) :
    ∀ (j : Nat) (l : List Item), last_descendant_scan pd j l ≤ j + l.length := by
  intro j l
  induction l generalizing j with
  | nil => simp [last_descendant_scan]
  | cons nxt rest ih =>
    rw [last_descendant_scan]
    split
    · simp
    · calc last_descendant_scan pd (j + 1) rest ≤ j + 1 + rest.length := ih (j + 1)
        _ = j + (nxt :: rest).length := by simp; omega

/-- On an in range index the after primitive answers. -/
theorem sort_order_after_index_isSome (items : List Item) (i : Nat)
    (h : i < items.length) :
    ∃ v, sort_order_after_index items i = some v := by
  have hp : items[i]? = some items[i] := List.getElem?_eq_some_iff.mpr ⟨h, rfl⟩
  simp only [sort_order_after_index, hp]
  cases h2 : items[i + 1]? with
  | none => exact ⟨_, rfl⟩
  | some nxt =>
    dsimp only
    split
    · exact ⟨_, rfl⟩
    · exact ⟨_, rfl⟩

/-- On an in range index the subtree key of the move planner is defined:
the scan stays in range and the after primitive answers. -/
theorem sort_order_after_subtree_isSome (items : List Item) (index : Nat)
    (h : index < items.length) :
    ∃ v, sort_order_after_subtree items index = some v := by
  have hp : items[index]? = some items[index] := List.getElem?_eq_some_iff.mpr ⟨h, rfl⟩
  have hlt : last_descendant_scan items[index].depth index (items.drop (index + 1)) <
      items.length := by
    have := last_descendant_scan_le items[index].depth index (items.drop (index + 1))
    rw [List.length_drop] at this
    omega
  obtain ⟨v, hv⟩ := sort_order_after_index_isSome items _ hlt
  refine ⟨v, ?_⟩
  simp only [sort_order_after_subtree, last_descendant_index, hp]
  exact hv

/-- A store row whose id differs from the rewritten id survives one store
write unchanged. -/
theorem mem_apply_update_of_ne {store : List TodoRecord} {r : TodoRecord}
    (hr : r ∈ store) (u : StoreUpdate)
    (hne : ∀ todo_id parent_id, u = .setParent todo_id parent_id → r.todo_id ≠ todo_id)
    (hne2 : ∀ todo_id so, u = .setSortOrder todo_id so → r.todo_id ≠ todo_id) :
    r ∈ apply_update store u := by
  cases u with
  | setParent todo_id parent_id =>
    have h := hne todo_id parent_id rfl
    have := List.mem_map_of_mem
      (fun x => if x.todo_id = todo_id then { x with parent_id := parent_id } else x) hr
    simpa [apply_update, update_parent, if_neg h] using this
  | setSortOrder todo_id so =>
    have h := hne2 todo_id so rfl
    have := List.mem_map_of_mem
      (fun x => if x.todo_id = todo_id then { x with sort_order := so } else x) hr
    simpa [apply_update, update_sort_order, if_neg h] using this

/-- C4: the three invalid move shapes — source and target the same item,
source and target of different status, and a child or parent move whose
target the code recognises as a descendant of the source — all fall
through the guard cascade of `perform_move`: the call returns normally,
issues no store write, and applying its (empty) plan leaves every stored
record unchanged. -/
theorem c4_invalid_moves_are_silent_noops (items : List Item)
    (source_id target_index : Nat) (relationship : String) (s t : Item)
    (hs : find_item_by_id items source_id = some s)
    (ht : items[target_index]? = some t)
    (hinvalid : s.todo_id = t.todo_id ∨ s.status ≠ t.status ∨
      (is_descendant t.todo_id s.todo_id (parent_by_id items) (desc_fuel items) = true ∧
        (relationship = "child" ∨ relationship = "parent"))) :
    perform_move items source_id target_index relationship = some [] ∧
    ∀ store : List TodoRecord,
      (perform_move items source_id target_index relationship).map
        (apply_updates store) = some store := by
  have key : perform_move items source_id target_index relationship = some [] := by
    unfold perform_move
    rw [hs, ht]
    rcases hinvalid with heq | hst | ⟨hdesc, hrel⟩
    · simp [heq]
    · by_cases heq : s.todo_id = t.todo_id
      · simp [heq]
      · simp [heq, hst]
    · by_cases heq : s.todo_id = t.todo_id
      · simp [heq]
      · by_cases hstatus : s.status = t.status
        · rcases hrel with rfl | rfl <;> simp [heq, hstatus, hdesc]
        · simp [heq, hstatus]
  exact ⟨key, fun store => by rw [key]; rfl⟩

/-- C4 witness: moving a node under its own child (ids 1 and 2, target a
descendant of the source, relationship child) issues no write and leaves
the empty store unchanged. -/
theorem c4_invalid_moves_are_silent_noops_witness :
    perform_move
      [⟨1, "todo", "s", none, 1, none, 0⟩, ⟨2, "todo", "t", some 1, 2, none, 1⟩]
      1 1 "child" = some [] ∧
    (perform_move
      [⟨1, "todo", "s", none, 1, none, 0⟩, ⟨2, "todo", "t", some 1, 2, none, 1⟩]
      1 1 "child").map (apply_updates []) = some [] := by
  have h := c4_invalid_moves_are_silent_noops
    [⟨1, "todo", "s", none, 1, none, 0⟩, ⟨2, "todo", "t", some 1, 2, none, 1⟩]
    1 1 "child" ⟨1, "todo", "s", none, 1, none, 0⟩ ⟨2, "todo", "t", some 1, 2, none, 1⟩
    (by decide) (by decide) (Or.inr (Or.inr ⟨by decide, Or.inl rfl⟩))
  exact ⟨h.1, h.2 []⟩

/-- C5: a sibling move whose target the code recognises as a descendant of
the source issues exactly two writes, both aimed at the target: the target
is reparented to the former parent of the source, and its sort key becomes
the after subtree key taken at the source position; no write touches the
source or any other record. -/
theorem c5_sibling_of_descendant_detaches_target (items : List Item)
    (source_id target_index : Nat) (s t : Item)
    (hids : (items.map (·.todo_id)).Nodup)
    (hs : find_item_by_id items source_id = some s)
    (ht : items[target_index]? = some t)
    (hne : s.todo_id ≠ t.todo_id)
    (hstatus : s.status = t.status)
    (hdesc : is_descendant t.todo_id s.todo_id (parent_by_id items)
      (desc_fuel items) = true) :
    ∃ so : Rat,
      sort_order_after_subtree items
        (items.findIdx (fun item => item.todo_id == source_id)) = some so ∧
      perform_move items source_id target_index "sibling" =
        some [.setParent t.todo_id s.parent_id, .setSortOrder t.todo_id so] ∧
      ∀ (store : List TodoRecord) (r : TodoRecord), r ∈ store →
        r.todo_id ≠ t.todo_id →
        r ∈ apply_updates store
          [.setParent t.todo_id s.parent_id, .setSortOrder t.todo_id so] := by
  have hsmem : s ∈ items := by
    have := List.mem_of_find?_eq_some hs
    exact this
  have hfound : s.todo_id = source_id := by
    have := List.find?_some hs
    simpa using this
  have hidx : items.findIdx (fun item => item.todo_id == source_id) < items.length := by
    apply List.findIdx_lt_length_of_exists
    exact ⟨s, hsmem, by simp [hfound]⟩
  obtain ⟨so, hso⟩ := sort_order_after_subtree_isSome items _ hidx
  refine ⟨so, hso, ?_, ?_⟩
  · unfold perform_move
    rw [hs, ht]
    simp only [hne, hstatus, hdesc]
    rw [parent_by_id_of_mem hids hsmem]
    simp [hne, hso]
  · intro store r hr hrne
    have step1 : r ∈ apply_update store (.setParent t.todo_id s.parent_id) :=
      mem_apply_update_of_ne hr _
        (by intro a p heq; cases heq; exact hrne)
        (by intro a v heq; cases heq)
    have step2 : r ∈ apply_update
        (apply_update store (.setParent t.todo_id s.parent_id))
        (.setSortOrder t.todo_id so) :=
      mem_apply_update_of_ne step1 _
        (by intro a p heq; cases heq)
        (by intro a v heq; cases heq; exact hrne)
    exact step2

/-- C5 witness: a root with one child, moving the root as sibling of its
own child reparents the child to the root level with key 3 (after the
subtree of the source) and issues exactly those two writes. -/
theorem c5_sibling_of_descendant_detaches_target_witness :
    perform_move
      [⟨1, "todo", "s", none, 1, none, 0⟩, ⟨2, "todo", "t", some 1, 2, none, 1⟩]
      1 1 "sibling" = some [.setParent 2 none, .setSortOrder 2 3] := by
  obtain ⟨so, h1, h2, _⟩ := c5_sibling_of_descendant_detaches_target
    [⟨1, "todo", "s", none, 1, none, 0⟩, ⟨2, "todo", "t", some 1, 2, none, 1⟩]
    1 1 ⟨1, "todo", "s", none, 1, none, 0⟩ ⟨2, "todo", "t", some 1, 2, none, 1⟩
    (by decide) (by decide) (by decide) (by decide) (by decide) (by decide)
  have heval : sort_order_after_subtree
      [⟨1, "todo", "s", none, 1, none, 0⟩, ⟨2, "todo", "t", some 1, 2, none, 1⟩]
      (List.findIdx (fun item : Item => item.todo_id == 1)
        [⟨1, "todo", "s", none, 1, none, 0⟩, ⟨2, "todo", "t", some 1, 2, none, 1⟩]) =
      some 3 := by
    norm_num [sort_order_after_subtree, last_descendant_index, last_descendant_scan,
      sort_order_after_index, List.findIdx, List.findIdx.go]
  rw [heval] at h1
  injection h1 with h1
  subst h1
  exact h2

end MoveClaims


section TreeBuilderProofs

/-- Members of a list with distinct images under a map are determined by
their image. -/
theorem eq_of_nodup_map {α β : Type} {f : α → β} {l : List α}
    (h : (l.map f).Nodup) {a b : α} (ha : a ∈ l) (hb : b ∈ l)
    (hid : f a = f b) : a = b := by
  induction l with
  | nil => cases ha
  | cons x xs ih =>
    rw [List.map_cons, List.nodup_cons] at h
    rcases List.mem_cons.mp ha with h1 | h1
    · rcases List.mem_cons.mp hb with h2 | h2
      · rw [h1, h2]
      · subst h1
        refine absurd ?_ h.1
        rw [hid]
        exact List.mem_map_of_mem f h2
    · rcases List.mem_cons.mp hb with h2 | h2
      · subst h2
        refine absurd ?_ h.1
        rw [← hid]
        exact List.mem_map_of_mem f h1
      · exact ih h.2 h1 h2

/-- Root test of the builder: the record carries no parent reference, or a
reference to an id outside the working set. -/
def is_root_rec (records : List TodoRecord) (r : TodoRecord) : Prop :=
  parent_present records r = false

/-- A record whose parent reference names a member of the working set is
not treated as a root. -/
theorem parent_present_of_mem {records : List TodoRecord} {r p : TodoRecord}
    (hp : p ∈ records) (hid : r.parent_id = some p.todo_id) :
    parent_present records r = true := by
  unfold parent_present
  rw [hid]
  exact List.elem_eq_true_of_mem (List.mem_map_of_mem (·.todo_id) hp)

/-- Ancestor chain in the working set: a nonempty list of records leading
from a record up to a root, each record linked to the next by its parent
reference. -/
inductive AncChain (records : List TodoRecord) : List TodoRecord → Prop
  | root (r : TodoRecord) : r ∈ records → is_root_rec records r →
      AncChain records [r]
  | step (r p : TodoRecord) (rest : List TodoRecord) : r ∈ records →
      r.parent_id = some p.todo_id → AncChain records (p :: rest) →
      AncChain records (r :: p :: rest)

/-- A record whose ancestor chain terminates at a root. -/
def Rooted (records : List TodoRecord) (r : TodoRecord) : Prop :=
  ∃ rest, AncChain records (r :: rest)

theorem AncChain.mem_records {records : List TodoRecord} {l : List TodoRecord}
    (h : AncChain records l) : ∀ q ∈ l, q ∈ records := by
  induction h with
  | root r hr _ =>
    intro q hq
    rcases List.mem_cons.mp hq with rfl | hq
    · exact hr
    · cases hq
  | step r p rest hr _ _ ih =>
    intro q hq
    rcases List.mem_cons.mp hq with rfl | hq
    · exact hr
    · exact ih q hq

theorem AncChain.suffix_of_mem {records : List TodoRecord} {l : List TodoRecord}
    (h : AncChain records l) {q : TodoRecord} (hq : q ∈ l) :
    ∃ t, AncChain records (q :: t) ∧ (q :: t) <:+ l := by
  induction h with
  | root r hr hroot =>
    rcases List.mem_cons.mp hq with rfl | hq
    · exact ⟨[], AncChain.root q hr hroot, List.suffix_refl _⟩
    · cases hq
  | step r p rest hr hpar hchain ih =>
    rcases List.mem_cons.mp hq with rfl | hq
    · exact ⟨p :: rest, AncChain.step q p rest hr hpar hchain, List.suffix_refl _⟩
    · obtain ⟨t, hc, hs⟩ := ih hq
      exact ⟨t, hc, hs.trans (List.suffix_cons r (p :: rest))⟩

/-- No record of an ancestor chain with distinct ids names the head of the
chain as its parent: the chain cannot bend back onto its own head. -/
theorem AncChain.head_not_parent {records : List TodoRecord}
    {v : TodoRecord} {rest : List TodoRecord}
    (h : AncChain records (v :: rest))
    (hnd : ((v :: rest).map (·.todo_id)).Nodup)
    (hids : (present_ids records).Nodup) :
    ∀ q ∈ v :: rest, q.parent_id ≠ some v.todo_id := by
  intro q hq hpar
  obtain ⟨t, hc, hs⟩ := h.suffix_of_mem hq
  have hvmem : v ∈ records := h.mem_records v (List.mem_cons_self v rest)
  cases hc with
  | root _ _ hroot =>
    exact absurd (parent_present_of_mem hvmem hpar) (by simpa [is_root_rec] using hroot)
  | step _ p t' _ hqp hsub =>
    have hpv : p = v := by
      refine eq_of_nodup_map hids ?_ hvmem ?_
      · exact hsub.mem_records p (List.mem_cons_self p t')
      · have := hqp.symm.trans hpar
        exact Option.some_inj.mp this
    have hnodup_list : (v :: rest).Nodup := hnd.of_map (·.todo_id)
    have hvnotin : v ∉ rest := (List.nodup_cons.mp hnodup_list).1
    obtain ⟨pre, hpre⟩ := hs
    cases pre with
    | nil =>
      simp only [List.nil_append] at hpre
      have h2 : p :: t' = rest := by
        injection hpre
      apply hvnotin
      rw [← h2, hpv]
      exact List.mem_cons_self v t'
    | cons y pre' =>
      rw [List.cons_append] at hpre
      have h2 : pre' ++ q :: p :: t' = rest := by
        injection hpre
      apply hvnotin
      rw [← h2, hpv]
      refine List.mem_append.mpr (Or.inr ?_)
      exact List.mem_cons.mpr (Or.inr (List.mem_cons_self v t'))

/-- An ancestor chain over a working set with distinct ids repeats no
id. -/
theorem AncChain.nodup_ids {records : List TodoRecord} {l : List TodoRecord}
    (h : AncChain records l) (hids : (present_ids records).Nodup) :
    (l.map (·.todo_id)).Nodup := by
  induction h with
  | root r _ _ => simp
  | step r p rest hr hpar hchain ih =>
    rw [List.map_cons, List.nodup_cons]
    refine ⟨?_, ih⟩
    intro hmem
    obtain ⟨q, hq, hqid⟩ := List.mem_map.mp hmem
    have hqr : q = r :=
      eq_of_nodup_map hids (hchain.mem_records q hq) hr hqid
    subst hqr
    exact AncChain.head_not_parent hchain ih hids q hq hpar

/-- An ancestor chain is no longer than the working set. -/
theorem AncChain.length_le {records : List TodoRecord} {l : List TodoRecord}
    (h : AncChain records l) (hids : (present_ids records).Nodup) :
    l.length ≤ records.length := by
  have hsub : l.map (·.todo_id) ⊆ present_ids records := by
    intro i hi
    obtain ⟨q, hq, hqid⟩ := List.mem_map.mp hi
    rw [← hqid]
    exact List.mem_map_of_mem (·.todo_id) (h.mem_records q hq)
  have := ((h.nodup_ids hids).subperm hsub).length_le
  simpa [present_ids] using this

/-- Membership in a sorted children group: the records of the working set
whose parent reference is the given id. -/
theorem mem_children_map {records : List TodoRecord} {i : Nat} {c : TodoRecord} :
    c ∈ children_map records i ↔ c ∈ records ∧ c.parent_id = some i := by
  unfold children_map sort_by_key
  rw [List.mem_insertionSort]
  simp [List.mem_filter]

/-- Membership in the sorted roots list: the records of the working set
whose parent reference is absent or dangling. -/
theorem mem_roots {records : List TodoRecord} {r : TodoRecord} :
    r ∈ roots records ↔ r ∈ records ∧ parent_present records r = false := by
  unfold roots sort_by_key
  rw [List.mem_insertionSort]
  simp [List.mem_filter]

/-- Lists joined from pointwise equal pieces agree. -/
theorem flatMap_congr_mem {α β : Type} {l : List α} {f g : α → List β}
    (h : ∀ a ∈ l, f a = g a) : l.flatMap f = l.flatMap g := by
  induction l with
  | nil => rfl
  | cons a t ih =>
    rw [List.flatMap_cons, List.flatMap_cons, h a (List.mem_cons_self a t),
      ih (fun b hb => h b (List.mem_cons.mpr (Or.inr hb)))]

/-- Fuel independence of the depth first walk: called on the head of a
valid ancestor chain with fuel reaching past the working set size minus
the chain already climbed, the walk no longer depends on the fuel. This is
the termination argument for the Python recursion: along any call path the
chain of distinct ancestors bounds the depth. -/
theorem walk_fuel_congr (records : List TodoRecord)
    (hids : (present_ids records).Nodup) :
    ∀ (f1 f2 : Nat) (v : TodoRecord) (rest : List TodoRecord) (d : Nat),
      AncChain records (v :: rest) →
      records.length + 1 ≤ f1 + (v :: rest).length →
      records.length + 1 ≤ f2 + (v :: rest).length →
      walk records f1 v d = walk records f2 v d := by
  intro f1
  induction f1 with
  | zero =>
    intro f2 v rest d hchain h1 h2
    exfalso
    have hlen : (v :: rest).length ≤ records.length := hchain.length_le hids
    omega
  | succ a ih =>
    intro f2 v rest d hchain h1 h2
    have hlen : (v :: rest).length ≤ records.length := hchain.length_le hids
    cases f2 with
    | zero => exact absurd h2 (by omega)
    | succ b =>
      show (v, d) ::
          (children_map records v.todo_id).flatMap (fun c => walk records a c (d + 1)) =
        (v, d) ::
          (children_map records v.todo_id).flatMap (fun c => walk records b c (d + 1))
      congr 1
      apply flatMap_congr_mem
      intro c hc
      obtain ⟨hcmem, hcpar⟩ := mem_children_map.mp hc
      refine ih b c (v :: rest) (d + 1)
        (AncChain.step c v rest hcmem hcpar hchain) ?_ ?_
      · simp only [List.length_cons] at h1 ⊢
        omega
      · simp only [List.length_cons] at h2 ⊢
        omega

/-- C3: on every record set with distinct ids — cyclic parent chains among
present records included — the builder terminates: giving the walk any
fuel beyond the number of records changes nothing, because every call
path climbs a chain of distinct records, so the recursion depth never
reaches the record count. Cycle members are never reached by the walk:
none of them is a root and none descends from a root. -/
theorem c3_walk_terminates_fuel_stable (records : List TodoRecord)
    (hids : (present_ids records).Nodup) (extra : Nat) :
    build_display_items_fuel (records.length + extra) records =
      build_display_items records := by
  unfold build_display_items build_display_items_fuel
  apply flatMap_congr_mem
  intro r hr
  obtain ⟨hrmem, hrroot⟩ := mem_roots.mp hr
  refine walk_fuel_congr records hids (records.length + extra) records.length r [] 0
    (AncChain.root r hrmem hrroot) ?_ ?_
  · simp only [List.length_cons, List.length_nil]
    omega
  · simp

/-- C3 witness: a record set containing a two record parent cycle plus one
root; any surplus fuel leaves the linearization unchanged. -/
theorem c3_walk_terminates_fuel_stable_witness :
    (present_ids
      [⟨1, "a", "t1", "todo", some 2, 1, none⟩,
       ⟨2, "b", "t2", "todo", some 1, 2, none⟩,
       ⟨3, "c", "t3", "todo", none, 3, none⟩]).Nodup ∧
    build_display_items_fuel 8
      [⟨1, "a", "t1", "todo", some 2, 1, none⟩,
       ⟨2, "b", "t2", "todo", some 1, 2, none⟩,
       ⟨3, "c", "t3", "todo", none, 3, none⟩] =
    build_display_items
      [⟨1, "a", "t1", "todo", some 2, 1, none⟩,
       ⟨2, "b", "t2", "todo", some 1, 2, none⟩,
       ⟨3, "c", "t3", "todo", none, 3, none⟩] :=
  ⟨by decide, c3_walk_terminates_fuel_stable
    [⟨1, "a", "t1", "todo", some 2, 1, none⟩,
     ⟨2, "b", "t2", "todo", some 1, 2, none⟩,
     ⟨3, "c", "t3", "todo", none, 3, none⟩] (by decide) 5⟩

/-- Count of an element across a joined list is the sum of the piecewise
counts. -/
theorem count_flatMap {α β : Type} [DecidableEq β] (x : β) (l : List α)
    (f : α → List β) :
    (l.flatMap f).count x = (l.map (fun a => (f a).count x)).sum := by
  induction l with
  | nil => rfl
  | cons a t ih => simp [List.flatMap_cons, List.count_append, ih]

/-- A positive sum over mapped values has a positive member. -/
theorem exists_pos_of_sum_pos {α : Type} (l : List α) (g : α → Nat)
    (h : 0 < (l.map g).sum) : ∃ a ∈ l, 0 < g a := by
  induction l with
  | nil => simp at h
  | cons a t ih =>
    rw [List.map_cons, List.sum_cons] at h
    by_cases ha : 0 < g a
    · exact ⟨a, List.mem_cons_self a t, ha⟩
    · have ht : 0 < (t.map g).sum := by omega
      obtain ⟨b, hb, hgb⟩ := ih ht
      exact ⟨b, List.mem_cons.mpr (Or.inr hb), hgb⟩

/-- A pointwise indicator sum counts the marked element. -/
theorem sum_indicator_eq_count {α : Type} [DecidableEq α] (l : List α)
    (g : α → Nat) (a : α) (h : ∀ c ∈ l, g c = if c = a then 1 else 0) :
    (l.map g).sum = l.count a := by
  induction l with
  | nil => rfl
  | cons c t ih =>
    rw [List.map_cons, List.sum_cons, List.count_cons,
      h c (List.mem_cons_self c t),
      ih (fun b hb => h b (List.mem_cons.mpr (Or.inr hb)))]
    by_cases hca : c = a <;> simp [hca, Nat.add_comm]

/-- Every record the walk emits belongs to the working set. -/
theorem walk_mem_records (records : List TodoRecord) :
    ∀ (f : Nat) (v : TodoRecord) (d : Nat) (y : TodoRecord),
      v ∈ records → y ∈ (walk records f v d).map Prod.fst → y ∈ records := by
  intro f
  induction f with
  | zero =>
    intro v d y _ hy
    simp [walk] at hy
  | succ a ih =>
    intro v d y hv hy
    simp only [walk, List.map_cons] at hy
    rcases List.mem_cons.mp hy with rfl | hy
    · exact hv
    · rw [List.map_flatMap] at hy
      rcases List.mem_flatMap.mp hy with ⟨c, hc, hyc⟩
      exact ih c (d + 1) y (mem_children_map.mp hc).1 hyc

/-- Along an ancestor chain, each record names the id of the next as its
parent. -/
theorem AncChain.get_parent {records : List TodoRecord} {l : List TodoRecord}
    (h : AncChain records l) :
    ∀ (j : Nat) (hj1 : j + 1 < l.length),
      (l.get ⟨j, by omega⟩).parent_id = some ((l.get ⟨j + 1, hj1⟩).todo_id) := by
  induction h with
  | root r _ _ =>
    intro j hj1
    simp at hj1
  | step r p rest hr hpar hchain ih =>
    intro j hj1
    cases j with
    | zero => simpa using hpar
    | succ k =>
      have hk : k + 1 < (p :: rest).length := by
        simp only [List.length_cons] at hj1 ⊢
        omega
      simpa using ih k hk

/-- The top of an ancestor chain is a root of the working set. -/
theorem AncChain.get_last_root {records : List TodoRecord} {l : List TodoRecord}
    (h : AncChain records l) :
    ∀ (j : Nat) (hj : j < l.length), j + 1 = l.length →
      is_root_rec records (l.get ⟨j, hj⟩) := by
  induction h with
  | root r hr hroot =>
    intro j hj hj1
    have hj0 : j = 0 := by
      simp only [List.length_singleton] at hj
      omega
    subst hj0
    simpa using hroot
  | step r p rest hr hpar hchain ih =>
    intro j hj hj1
    cases j with
    | zero =>
      exfalso
      simp only [List.length_cons] at hj1
      omega
    | succ k =>
      have hk : k < (p :: rest).length := by
        simp only [List.length_cons] at hj ⊢
        omega
      have hk1 : k + 1 = (p :: rest).length := by
        simp only [List.length_cons] at hj1 ⊢
        omega
      simpa using ih k hk hk1

/-- If the walk started anywhere in the working set emits the record x,
the start lies on the ancestor chain of x: the parent links are a
function of the child, so the only way down to x is along its chain. -/
theorem count_walk_pos_mem_chain {records : List TodoRecord}
    (hids : (present_ids records).Nodup) {x : TodoRecord} {cx : List TodoRecord}
    (hC : AncChain records (x :: cx)) :
    ∀ (f : Nat) (v : TodoRecord) (d : Nat), v ∈ records →
      0 < ((walk records f v d).map Prod.fst).count x → v ∈ x :: cx := by
  intro f
  induction f with
  | zero =>
    intro v d _ hpos
    simp [walk] at hpos
  | succ a ih =>
    intro v d hv hpos
    simp only [walk, List.map_cons, List.count_cons] at hpos
    by_cases hvx : v = x
    · rw [hvx]
      exact List.mem_cons_self x cx
    · rw [if_neg (by simpa using hvx)] at hpos
      rw [List.map_flatMap, count_flatMap] at hpos
      obtain ⟨c, hc, hcpos⟩ := exists_pos_of_sum_pos (children_map records v.todo_id)
        (fun c => ((walk records a c (d + 1)).map Prod.fst).count x) (by omega)
      obtain ⟨hcmem, hcpar⟩ := mem_children_map.mp hc
      have hcC : c ∈ x :: cx := ih c (d + 1) hcmem hcpos
      obtain ⟨t, hct, hsuffix⟩ := hC.suffix_of_mem hcC
      cases hct with
      | root _ _ hroot =>
        exact absurd (parent_present_of_mem hv hcpar)
          (by simpa [is_root_rec] using hroot)
      | step _ p t' _ hcp hsub =>
        have hpv : p = v := by
          refine eq_of_nodup_map hids
            (hsub.mem_records p (List.mem_cons_self p t')) hv ?_
          have := hcp.symm.trans hcpar
          exact Option.some_inj.mp this
        rw [← hpv]
        exact hsuffix.subset (List.mem_cons.mpr (Or.inr (List.mem_cons_self p t')))

/-- A working set with distinct ids repeats no record. -/
theorem records_nodup {records : List TodoRecord}
    (hids : (present_ids records).Nodup) : records.Nodup :=
  List.Nodup.of_map (·.todo_id) (by simpa [present_ids] using hids)

/-- The walk started at a rooted record emits that record exactly once:
once at the start, and never again below, since no child of the record
lies on its own ancestor chain. -/
theorem count_walk_self {records : List TodoRecord}
    (hids : (present_ids records).Nodup) {x : TodoRecord} {cx : List TodoRecord}
    (hC : AncChain records (x :: cx)) :
    ∀ (f : Nat) (d : Nat), 0 < f →
      ((walk records f x d).map Prod.fst).count x = 1 := by
  intro f d hf
  cases f with
  | zero => omega
  | succ a =>
    simp only [walk, List.map_cons, List.count_cons]
    rw [List.map_flatMap, count_flatMap]
    have hzero : ∀ c ∈ children_map records x.todo_id,
        ((walk records a c (d + 1)).map Prod.fst).count x = 0 := by
      intro c hc
      obtain ⟨hcmem, hcpar⟩ := mem_children_map.mp hc
      by_contra hne
      have hpos : 0 < ((walk records a c (d + 1)).map Prod.fst).count x := by omega
      have hcC : c ∈ x :: cx := count_walk_pos_mem_chain hids hC a c (d + 1) hcmem hpos
      exact AncChain.head_not_parent hC (hC.nodup_ids hids) hids c hcC hcpar
    have hsum : (List.map (fun c => ((walk records a c (d + 1)).map Prod.fst).count x)
        (children_map records x.todo_id)).sum = 0 := by
      apply List.sum_eq_zero
      intro y hy
      obtain ⟨c, hc, hcy⟩ := List.mem_map.mp hy
      rw [← hcy]
      exact hzero c hc
    rw [hsum]
    simp

/-- Walking from the record at height i of the ancestor chain of x, with
fuel past i, emits x exactly once: the walk descends the chain one level
per fuel unit and meets x at the bottom. -/
theorem count_walk_chain_get {records : List TodoRecord}
    (hids : (present_ids records).Nodup) {x : TodoRecord} {cx : List TodoRecord}
    (hC : AncChain records (x :: cx)) :
    ∀ (i : Nat) (hi : i < (x :: cx).length) (f d : Nat), i + 1 ≤ f →
      ((walk records f ((x :: cx).get ⟨i, hi⟩) d).map Prod.fst).count x = 1 := by
  intro i
  induction i with
  | zero =>
    intro hi f d hf
    exact count_walk_self hids hC f d (by omega)
  | succ i ih =>
    intro hi f d hf
    have hiC : i < (x :: cx).length := by omega
    have hadj : ((x :: cx).get ⟨i, hiC⟩).parent_id =
        some (((x :: cx).get ⟨i + 1, hi⟩).todo_id) := hC.get_parent i hi
    have hCnodup : (x :: cx).Nodup := (hC.nodup_ids hids).of_map (·.todo_id)
    cases f with
    | zero => omega
    | succ a =>
      have hvmem : (x :: cx).get ⟨i + 1, hi⟩ ∈ records :=
        hC.mem_records _ (List.get_mem _ _ _)
      have humem : (x :: cx).get ⟨i, hiC⟩ ∈ records :=
        hC.mem_records _ (List.get_mem _ _ _)
      simp only [walk, List.map_cons, List.count_cons]
      rw [List.map_flatMap, count_flatMap]
      have hvnex : ¬ ((x :: cx).get ⟨i + 1, hi⟩ = x) := by
        intro heq
        have hx0 : (x :: cx).get ⟨0, by simp⟩ = x := rfl
        have hfin := hCnodup.get_inj_iff.mp (heq.trans hx0.symm)
        have hval := congrArg Fin.val hfin
        simp at hval
      rw [if_neg (by simpa using hvnex)]
      have hpointwise : ∀ c ∈ children_map records
          (((x :: cx).get ⟨i + 1, hi⟩).todo_id),
          ((walk records a c (d + 1)).map Prod.fst).count x =
            if c = (x :: cx).get ⟨i, hiC⟩ then 1 else 0 := by
        intro c hc
        obtain ⟨hcmem, hcpar⟩ := mem_children_map.mp hc
        by_cases hcu : c = (x :: cx).get ⟨i, hiC⟩
        · rw [if_pos hcu, hcu]
          exact ih hiC a (d + 1) (by omega)
        · rw [if_neg hcu]
          by_contra hne
          have hpos : 0 < ((walk records a c (d + 1)).map Prod.fst).count x := by
            omega
          have hcC : c ∈ x :: cx :=
            count_walk_pos_mem_chain hids hC a c (d + 1) hcmem hpos
          obtain ⟨⟨j, hj⟩, hget⟩ := List.mem_iff_get.mp hcC
          by_cases hjlast : j + 1 < (x :: cx).length
          · have hadj2 : c.parent_id = some (((x :: cx).get ⟨j + 1, hjlast⟩).todo_id) := by
              rw [← hget]
              exact hC.get_parent j hjlast
            have hidm : ((x :: cx).get ⟨j + 1, hjlast⟩).todo_id =
                ((x :: cx).get ⟨i + 1, hi⟩).todo_id := by
              have := (hadj2.symm.trans hcpar)
              exact Option.some_inj.mp this
            have heq : (x :: cx).get ⟨j + 1, hjlast⟩ = (x :: cx).get ⟨i + 1, hi⟩ :=
              eq_of_nodup_map hids (hC.mem_records _ (List.get_mem _ _ _)) hvmem hidm
            have hji : (⟨j + 1, hjlast⟩ : Fin (x :: cx).length) = ⟨i + 1, hi⟩ :=
              hCnodup.get_inj_iff.mp heq
            have hj_eq : j = i := by
              rw [Fin.mk.injEq] at hji
              omega
            apply hcu
            rw [← hget]
            exact congrArg ((x :: cx).get) (Fin.ext hj_eq)
          · have hlast : j + 1 = (x :: cx).length := by omega
            have hroot : is_root_rec records ((x :: cx).get ⟨j, hj⟩) :=
              hC.get_last_root j hj hlast
            rw [hget] at hroot
            exact absurd (parent_present_of_mem hvmem hcpar)
              (by simpa [is_root_rec] using hroot)
      rw [sum_indicator_eq_count _ _ _ hpointwise]
      have hcount : (children_map records
          (((x :: cx).get ⟨i + 1, hi⟩).todo_id)).count ((x :: cx).get ⟨i, hiC⟩) = 1 := by
        unfold children_map sort_by_key
        rw [(List.perm_insertionSort rec_le _).count_eq,
          List.count_filter (by rw [beq_iff_eq]; exact hadj)]
        exact List.count_eq_one_of_mem (records_nodup hids) humem
      rw [hcount]

/-- A rooted record of a working set with distinct ids appears exactly
once in the linearization: once under the root that tops its ancestor
chain, and under no other root. -/
theorem count_build_eq_one {records : List TodoRecord}
    (hids : (present_ids records).Nodup) {x : TodoRecord}
    (hx : x ∈ records) (hrooted : Rooted records x) :
    ((build_display_items records).map Prod.fst).count x = 1 := by
  obtain ⟨cx, hC⟩ := hrooted
  have hCnodup : (x :: cx).Nodup := (hC.nodup_ids hids).of_map (·.todo_id)
  have hlen : (x :: cx).length ≤ records.length := hC.length_le hids
  have hj : cx.length < (x :: cx).length := by simp
  unfold build_display_items build_display_items_fuel
  rw [List.map_flatMap, count_flatMap]
  have hrx_root : is_root_rec records ((x :: cx).get ⟨cx.length, hj⟩) :=
    hC.get_last_root cx.length hj (by simp)
  have hrx_mem : (x :: cx).get ⟨cx.length, hj⟩ ∈ records :=
    hC.mem_records _ (List.get_mem _ _ _)
  have hpointwise : ∀ r ∈ roots records,
      ((walk records records.length r 0).map Prod.fst).count x =
        if r = (x :: cx).get ⟨cx.length, hj⟩ then 1 else 0 := by
    intro r hr
    obtain ⟨hrmem, hrpp⟩ := mem_roots.mp hr
    by_cases hreq : r = (x :: cx).get ⟨cx.length, hj⟩
    · rw [if_pos hreq, hreq]
      refine count_walk_chain_get hids hC cx.length hj records.length 0 ?_
      simpa using hlen
    · rw [if_neg hreq]
      by_contra hne
      have hpos : 0 < ((walk records records.length r 0).map Prod.fst).count x := by
        omega
      have hrC : r ∈ x :: cx :=
        count_walk_pos_mem_chain hids hC records.length r 0 hrmem hpos
      obtain ⟨⟨j, hjlt⟩, hget⟩ := List.mem_iff_get.mp hrC
      by_cases hjlast : j + 1 < (x :: cx).length
      · have hadj : r.parent_id = some (((x :: cx).get ⟨j + 1, hjlast⟩).todo_id) := by
          rw [← hget]
          exact hC.get_parent j hjlast
        have hpp : parent_present records r = true :=
          parent_present_of_mem (hC.mem_records _ (List.get_mem _ _ _)) hadj
        rw [hrpp] at hpp
        cases hpp
      · have hlastj : j + 1 = (x :: cx).length := by omega
        apply hreq
        rw [← hget]
        have : j = cx.length := by
          simp only [List.length_cons] at hlastj
          omega
        congr 1
        exact Fin.ext this
  rw [sum_indicator_eq_count _ _ _ hpointwise]
  unfold roots sort_by_key
  rw [(List.perm_insertionSort rec_le _).count_eq,
    List.count_filter (by simp [is_root_rec] at hrx_root; simp [hrx_root])]
  exact List.count_eq_one_of_mem (records_nodup hids) hrx_mem

/-- C2 amended: on a working set with distinct ids in which every record
has a terminating ancestor chain — dangling parent references allowed —
the linearization contains exactly the records of the set, each exactly
once; the builder is a total function, so no input is rejected. -/
theorem c2_forest_completeness_acyclic (records : List TodoRecord)
    (hids : (present_ids records).Nodup)
    (hroot : ∀ r ∈ records, Rooted records r) :
    ((build_display_items records).map Prod.fst).Perm records := by
  rw [List.perm_iff_count]
  intro x
  by_cases hx : x ∈ records
  · rw [count_build_eq_one hids hx (hroot x hx),
      List.count_eq_one_of_mem (records_nodup hids) hx]
  · rw [List.count_eq_zero.mpr hx, List.count_eq_zero.mpr ?_]
    intro hmem
    unfold build_display_items build_display_items_fuel at hmem
    rw [List.map_flatMap] at hmem
    rcases List.mem_flatMap.mp hmem with ⟨r, hr, hxr⟩
    exact hx (walk_mem_records records records.length r 0 x (mem_roots.mp hr).1 hxr)

/-- C2 amended witness: a root with one child and one dangling reference
treated as root; the linearization is a permutation of the input. -/
theorem c2_forest_completeness_acyclic_witness :
    ((build_display_items
      [⟨1, "a", "t1", "todo", none, 1, none⟩,
       ⟨2, "b", "t2", "todo", some 1, 2, none⟩,
       ⟨3, "c", "t3", "todo", some 9, 3, none⟩]).map Prod.fst).Perm
      [⟨1, "a", "t1", "todo", none, 1, none⟩,
       ⟨2, "b", "t2", "todo", some 1, 2, none⟩,
       ⟨3, "c", "t3", "todo", some 9, 3, none⟩] := by
  refine c2_forest_completeness_acyclic _ (by decide) ?_
  intro r hr
  simp only [List.mem_cons, List.not_mem_nil, or_false] at hr
  rcases hr with rfl | rfl | rfl
  · exact ⟨[], AncChain.root _ (by simp) rfl⟩
  · refine ⟨[⟨1, "a", "t1", "todo", none, 1, none⟩],
      AncChain.step _ _ [] (by simp) rfl (AncChain.root _ (by simp) rfl)⟩
  · exact ⟨[], AncChain.root _ (by simp) rfl⟩

end TreeBuilderProofs

end FiveAm
